import Mathlib

/-!
Shallow embedding of `chain/ethereum/src/network_indexer/network_indexer.rs`
(the network indexer state machine of graph-node) and proofs about it.

Machine integers (`u64`) are modelled as `Nat` with explicit wrap-around
`% 2^64` at every arithmetic operation the source performs (Rust release
semantics). Futures and streams are modelled by resolving them at the state
machine step that polls them: every external collaborator (adapter, store,
block writer, downstream channel) is an oracle packaged in `Env`, indexed by
the machine step counter `t` where the source can observe different answers
over time. Unbounded `loop_fn` loops are modelled with explicit fuel.
-/

namespace NetworkIndexer

/-- u64 wrap-around addition (Rust release-mode `+` on `u64`). -/
def u64add (a b : Nat) : Nat := (a + b) % 2 ^ 64

/-- u64 wrap-around subtraction (Rust release-mode `-` on `u64`); correct for
`a b < 2^64`. -/
def u64sub (a b : Nat) : Nat := (a + (2 ^ 64 - b)) % 2 ^ 64

/-- Rust `Range<u64>` iteration `lo..hi`: yields `lo, lo+1, ..., hi-1`, empty
when `hi <= lo`. -/
def range_u64 (lo hi : Nat) : List Nat := (List.range (hi - lo)).map (fun i => lo + i)

/-- EthereumBlockPointer: `(number, hash)`. Hashes are modelled as `Nat`. -/
structure EthereumBlockPointer where
  number : Nat
  hash : Nat
deriving DecidableEq, Repr

/-- LightEthereumBlock as used by the indexer: optional number and hash. -/
structure LightEthereumBlock where
  number : Option Nat
  hash : Option Nat
deriving DecidableEq, Repr

/-- BlockWithUncles, as far as the indexer inspects it: optional number and
hash, and an always-present parent hash. -/
structure BlockWithUncles where
  number : Option Nat
  hash : Option Nat
  parentHash : Nat
deriving DecidableEq, Repr

/-- Modelled from the spec: the `From<&EthereumBlock> for EthereumBlockPointer`
conversion used by `block.inner().into()` lives outside this source file; per
the spec a block pointer is the block's `(number, hash)`. The source only
converts validated blocks, so the defaults are never observable. -/
def block_pointer (b : BlockWithUncles) : EthereumBlockPointer :=
  { number := b.number.getD 0, hash := b.hash.getD 0 }

/-- Modelled from the spec: `parent_ptr` of a block lives outside this source
file; section 3 of the spec defines the parent pointer as `(number-1,
parent_hash)` for `number > 0` and undefined (none) for the genesis block. -/
def parent_ptr (b : BlockWithUncles) : Option EthereumBlockPointer :=
  match b.number with
  | none => none
  | some n => if n = 0 then none else some { number := n - 1, hash := b.parentHash }

/-- The value of the `parent` field of a stored `Block` entity: absent,
present but not a string (the `as_string().expect(..)` panic), present but not
valid hex, or a valid hash. -/
inductive ParentVal where
  | nonString
  | badHex
  | hash (h : Nat)
deriving DecidableEq, Repr

/-- The slice of a stored `Block` entity that `collect_blocks_to_revert`
reads: its `parent` field. -/
structure BlockEntity where
  parent : Option ParentVal
deriving DecidableEq, Repr

/-- NetworkIndexerEvent: the events delivered downstream. -/
inductive NetworkIndexerEvent where
  | revert (from_ to_ : EthereumBlockPointer)
  | addBlock (p : EthereumBlockPointer)
deriving DecidableEq, Repr

/-- Trace actions: successful store operations and emitted events, in the
order they happen. -/
inductive Action where
  | wrote (p : EthereumBlockPointer)
  | reverted (from_ to_ : EthereumBlockPointer)
  | emitted (e : NetworkIndexerEvent)
deriving DecidableEq, Repr

/-- One element of the block stream built by `fetch_blocks`: the resolved
outcome of one `fetch_block_and_uncles_by_number` future (`Ok(Some _)`,
`Ok(None)` = remote gap, or `Err`). -/
inductive StreamItem where
  | item (b : Option BlockWithUncles)
  | errItem
deriving DecidableEq, Repr

/-- Result of a fuel-bounded `loop_fn` loop: success, error
(`future::err(..)`), Rust panic (`unwrap`/`expect`), or out of fuel. -/
inductive WalkRes (α : Type) where
  | ok (a : α)
  | fail
  | panicked
  | diverge
deriving DecidableEq, Repr

/-- Oracle environment: resolved answers of all external collaborators.
Time-dependent answers are indexed by the machine step counter. -/
structure Env where
  /-- `event_sink.poll_ready()` succeeds (downstream channel open) at step t. -/
  channelOpen : Nat → Bool
  /-- result of `store.block_ptr(..)` in the `Start` transition. -/
  localHeadRes : Except Unit (Option EthereumBlockPointer)
  /-- result of `adapter.latest_block(..)` polled at step t. -/
  chainHeadRes : Nat → Except Unit LightEthereumBlock
  /-- resolved outcome of `fetch_block_and_uncles_by_number` per number. -/
  fetchByNumber : Nat → StreamItem
  /-- resolved outcome of `fetch_block_and_uncles` (by hash). -/
  fetchByHash : Nat → Except Unit (Option BlockWithUncles)
  /-- result of `store.get` on a block entity key (keyed by block hash, per
  the spec's description of `to_entity_key`). -/
  storeGet : Nat → Except Unit (Option BlockEntity)
  /-- whether the `block_writer.write` at step t succeeds. -/
  writeOk : Nat → Bool
  /-- whether `store.revert_block_operations(_, from, to)` succeeds. -/
  revertOk : EthereumBlockPointer → EthereumBlockPointer → Bool

/-- fetch_blocks: the stream of per-number fetch outcomes over the Rust range
`lo..hi`. -/
def fetch_blocks (env : Env) (lo hi : Nat) : List StreamItem :=
  (range_u64 lo hi).map env.fetchByNumber

/-- Loop body iteration of `fetch_forked_blocks` (`loop_fn` starting from
`vec![head]`): take the last collected block, unwrap its number and hash
(panic if absent), look its entity up in the store; present means the fork
base is found (break with the collected list), absent means fetch its parent
by hash and continue, a `None` parent fetch or any error fails the future. -/
def fetch_forked_blocks_aux (env : Env) : Nat → List BlockWithUncles → WalkRes (List BlockWithUncles)
  | 0, _ => .diverge
  | fuel + 1, blocks =>
    match blocks.getLast? with
    | none => .panicked
    | some b =>
      match b.number, b.hash with
      | some _, some h =>
        match env.storeGet h with
        | .ok none =>
          match env.fetchByHash b.parentHash with
          | .ok none => .fail
          | .ok (some parent) => fetch_forked_blocks_aux env fuel (blocks ++ [parent])
          | .error _ => .fail
        | .ok (some _) => .ok blocks
        | .error _ => .fail
      | _, _ => .panicked

/-- fetch_forked_blocks: walk backwards from `head` along parent hashes until
a block already present in the store is found. -/
def fetch_forked_blocks (env : Env) (fuel : Nat) (head : BlockWithUncles) : WalkRes (List BlockWithUncles) :=
  fetch_forked_blocks_aux env fuel [head]

/-- Loop body iteration of `collect_blocks_to_revert` (`loop_fn` starting from
`vec![head]`): take the last collected pointer; if it equals the fork base,
break with the collected list; otherwise read its entity from the store (a
missing entity, missing `parent` field or invalid parent hash fail the
future; a non-string `parent` value panics) and push the parent pointer
`(number - 1, parent_hash)` (u64 subtraction). -/
def collect_blocks_to_revert_aux (env : Env) (fork_base : EthereumBlockPointer) :
    Nat → List EthereumBlockPointer → WalkRes (List EthereumBlockPointer)
  | 0, _ => .diverge
  | fuel + 1, blocks =>
    match blocks.getLast? with
    | none => .panicked
    | some p =>
      if p = fork_base then .ok blocks
      else
        match env.storeGet p.hash with
        | .error _ => .fail
        | .ok none => .fail
        | .ok (some entity) =>
          match entity.parent with
          | none => .fail
          | some .nonString => .panicked
          | some .badHex => .fail
          | some (.hash ph) =>
            collect_blocks_to_revert_aux env fork_base fuel
              (blocks ++ [{ number := u64sub p.number 1, hash := ph }])

/-- collect_blocks_to_revert: enumerate the locally stored pointers from
`head` down to `fork_base` by following stored parent references. -/
def collect_blocks_to_revert (env : Env) (fuel : Nat) (head fork_base : EthereumBlockPointer) :
    WalkRes (List EthereumBlockPointer) :=
  collect_blocks_to_revert_aux env fork_base fuel [head]

/-- The `for_each` over `blocks[0..].zip(blocks[1..])` inside `revert_blocks`:
for each consecutive pair, perform `revert_block_operations` and then send a
`Revert` event; a failing revert stops the sequence with an error (events sent
so far stay sent). Channel sends are modelled as succeeding; closure is
observed at state entry. Returns the emitted actions and the success flag. -/
def run_reverts (env : Env) : List (EthereumBlockPointer × EthereumBlockPointer) → List Action × Bool
  | [] => ([], true)
  | (f, t) :: rest =>
    if env.revertOk f t then
      let r := run_reverts env rest
      (Action.reverted f t :: Action.emitted (.revert f t) :: r.1, r.2)
    else ([], false)

/-- revert_blocks: `blocks.last().expect(..)` is the fork base (panic on an
empty list), then run the revert/emit sequence over consecutive pairs; on
success the future resolves to the fork base. -/
def revert_blocks (env : Env) (blocks : List EthereumBlockPointer) : List Action × WalkRes EthereumBlockPointer :=
  match blocks.getLast? with
  | none => ([], .panicked)
  | some fork_base =>
    let r := run_reverts env (blocks.zip blocks.tail)
    (r.1, if r.2 then .ok fork_base else .fail)

/-- The states of the indexer state machine, with every pending future
replaced by the data it captured (the oracle resolves it at the step that
polls it). Block streams are the list of their remaining resolved items. -/
inductive MState where
  | start
  | loadLocalHead
  | pollChainHead (local_head : Option EthereumBlockPointer)
  | processBlocks (local_head : Option EthereumBlockPointer) (chain_head : LightEthereumBlock)
      (next_blocks : List StreamItem)
  | vetBlock (local_head : Option EthereumBlockPointer) (chain_head : LightEthereumBlock)
      (next_blocks : List StreamItem) (block : BlockWithUncles)
  | fetchForkedBlocks (local_head : Option EthereumBlockPointer) (chain_head : LightEthereumBlock)
      (next_blocks : List StreamItem) (head : BlockWithUncles)
  | revertToForkBase (local_head : Option EthereumBlockPointer) (chain_head : LightEthereumBlock)
      (next_blocks : List StreamItem) (local_head_ptr fork_base_ptr : EthereumBlockPointer)
  | addBlock (chain_head : LightEthereumBlock) (next_blocks : List StreamItem)
      (old_local_head : Option EthereumBlockPointer) (block : BlockWithUncles)
deriving DecidableEq, Repr

/-- Reasons the machine future resolves with `Err` (the `Failed` state). -/
inductive ErrKind where
  | channelClosed
  | loadLocalHeadFailed
deriving DecidableEq, Repr

/-- Result of one poll of the machine: a transition, the (unused) `Ready`
outcome, the `Failed` error outcome, a Rust panic, or an inner loop running
out of fuel. -/
inductive StepRes where
  | next (s : MState)
  | ready
  | failed (e : ErrKind)
  | panicked
  | stuck
deriving DecidableEq, Repr

/-- poll_load_local_head (after the channel check): `try_ready!` on the local
head future; an error propagates as `Failed`. -/
def poll_load_local_head (env : Env) : List Action × StepRes :=
  match env.localHeadRes with
  | .error _ => ([], .failed .loadLocalHeadFailed)
  | .ok local_head => ([], .next (.pollChainHead local_head))

/-- poll_poll_chain_head (after the channel check): on an invalid chain head
or an adapter error re-poll in place; on a valid chain head compute (in u64
arithmetic) `next_block_number`, `remaining_blocks`, `block_range_size` and
move to `ProcessBlocks` with the stream over
`next_block_number..next_block_number+block_range_size`. -/
def poll_poll_chain_head (env : Env) (t : Nat) (local_head : Option EthereumBlockPointer) :
    List Action × StepRes :=
  match env.chainHeadRes t with
  | .error _ => ([], .next (.pollChainHead local_head))
  | .ok chain_head =>
    if chain_head.number.isNone || chain_head.hash.isNone then
      ([], .next (.pollChainHead local_head))
    else
      let chain_head_number := chain_head.number.getD 0
      let next_block_number :=
        match local_head with
        | none => 0
        | some ptr => u64add ptr.number 1
      let remaining_blocks := u64sub (u64add chain_head_number 1) next_block_number
      let block_range_size := min remaining_blocks 1000
      ([], .next (.processBlocks local_head chain_head
        (fetch_blocks env next_block_number (u64add next_block_number block_range_size))))

/-- poll_process_blocks (after the channel check): exhausted stream, a
`Some(None)` gap item, or a stream error all reset to `PollChainHead`; a block
goes to `VetBlock` with the remaining stream. -/
def poll_process_blocks (local_head : Option EthereumBlockPointer) (chain_head : LightEthereumBlock)
    (next_blocks : List StreamItem) : List Action × StepRes :=
  match next_blocks with
  | [] => ([], .next (.pollChainHead local_head))
  | .errItem :: _ => ([], .next (.pollChainHead local_head))
  | .item none :: _ => ([], .next (.pollChainHead local_head))
  | .item (some block) :: rest => ([], .next (.vetBlock local_head chain_head rest block))

/-- poll_vet_block (after the channel check): an invalid block or a block
older than the local head resets to `PollChainHead` (stream dropped); a
non-successor goes to `FetchForkedBlocks` carrying the stream; a successor
goes to `AddBlock` remembering the old local head. -/
def poll_vet_block (local_head : Option EthereumBlockPointer) (chain_head : LightEthereumBlock)
    (next_blocks : List StreamItem) (block : BlockWithUncles) : List Action × StepRes :=
  if block.number.isNone || block.hash.isNone then
    ([], .next (.pollChainHead local_head))
  else if block.number.getD 0 <
      (match local_head with
        | none => 0
        | some ptr => ptr.number) then
    ([], .next (.pollChainHead local_head))
  else if parent_ptr block ≠ local_head then
    ([], .next (.fetchForkedBlocks local_head chain_head next_blocks block))
  else
    ([], .next (.addBlock chain_head next_blocks local_head block))

/-- poll_fetch_forked_blocks (after the channel check): on success pop the
fork base (`expect` panic on an empty list), `expect` the local head (panic if
none), prepend the remaining forked blocks reversed to the carried stream and
move to `RevertToForkBase`; on error reset to `PollChainHead`. -/
def poll_fetch_forked_blocks (env : Env) (ifuel : Nat) (local_head : Option EthereumBlockPointer)
    (chain_head : LightEthereumBlock) (next_blocks : List StreamItem) (head : BlockWithUncles) :
    List Action × StepRes :=
  match fetch_forked_blocks env ifuel head with
  | .ok forked_blocks =>
    match forked_blocks.getLast? with
    | none => ([], .panicked)
    | some fork_base =>
      match local_head with
      | none => ([], .panicked)
      | some local_head_ptr =>
        ([], .next (.revertToForkBase local_head chain_head
          (((forked_blocks.dropLast.map (fun b => StreamItem.item (some b))).reverse) ++ next_blocks)
          local_head_ptr (block_pointer fork_base)))
  | .fail => ([], .next (.pollChainHead local_head))
  | .panicked => ([], .panicked)
  | .diverge => ([], .stuck)

/-- poll_revert_to_fork_base (after the channel check): resolve the composite
`collect_blocks_to_revert` / `revert_blocks` future; on success the fork base
becomes the local head and processing continues with the carried stream; on
error reset to `PollChainHead` keeping the old local head (events already sent
by the partial revert sequence stay sent). -/
def poll_revert_to_fork_base (env : Env) (ifuel : Nat) (local_head : Option EthereumBlockPointer)
    (chain_head : LightEthereumBlock) (next_blocks : List StreamItem)
    (local_head_ptr fork_base_ptr : EthereumBlockPointer) : List Action × StepRes :=
  match collect_blocks_to_revert env ifuel local_head_ptr fork_base_ptr with
  | .ok block_ptrs =>
    match (revert_blocks env block_ptrs).2 with
    | .ok p =>
      ((revert_blocks env block_ptrs).1, .next (.processBlocks (some p) chain_head next_blocks))
    | .fail => ((revert_blocks env block_ptrs).1, .next (.pollChainHead local_head))
    | .panicked => ((revert_blocks env block_ptrs).1, .panicked)
    | .diverge => ((revert_blocks env block_ptrs).1, .stuck)
  | .fail => ([], .next (.pollChainHead local_head))
  | .panicked => ([], .panicked)
  | .diverge => ([], .stuck)

/-- poll_add_block (after the channel check): resolve the composite
`write_block` / `send_event(AddBlock ..)` future; on success the block's
pointer becomes the local head; on error reset to `PollChainHead` with the old
local head. -/
def poll_add_block (env : Env) (t : Nat) (chain_head : LightEthereumBlock)
    (next_blocks : List StreamItem) (old_local_head : Option EthereumBlockPointer)
    (block : BlockWithUncles) : List Action × StepRes :=
  if env.writeOk t then
    let p := block_pointer block
    ([Action.wrote p, Action.emitted (.addBlock p)],
      .next (.processBlocks (some p) chain_head next_blocks))
  else
    ([], .next (.pollChainHead old_local_head))

/-- One poll of the state machine at step counter `t`: every state first
checks `event_sink.poll_ready()` (`try_ready!` turns a closed channel into the
`Failed` error outcome), then runs its handler. -/
def step (env : Env) (ifuel t : Nat) (s : MState) : List Action × StepRes :=
  if env.channelOpen t then
    match s with
    | .start => ([], .next .loadLocalHead)
    | .loadLocalHead => poll_load_local_head env
    | .pollChainHead lh => poll_poll_chain_head env t lh
    | .processBlocks lh ch ns => poll_process_blocks lh ch ns
    | .vetBlock lh ch ns b => poll_vet_block lh ch ns b
    | .fetchForkedBlocks lh ch ns b => poll_fetch_forked_blocks env ifuel lh ch ns b
    | .revertToForkBase lh ch ns lhp fbp => poll_revert_to_fork_base env ifuel lh ch ns lhp fbp
    | .addBlock ch ns olh b => poll_add_block env t ch ns olh b
  else ([], .failed .channelClosed)

/-- Outcome of running the machine for a bounded number of steps. -/
inductive RunRes where
  | outOfSteps (s : MState)
  | done (e : ErrKind)
  | finished
  | panicked
  | stuck
deriving DecidableEq, Repr

/-- Run the machine for `n` steps from state `s` at step counter `t`,
concatenating the action traces of the steps. -/
def run (env : Env) (ifuel : Nat) : Nat → Nat → MState → List Action × RunRes
  | 0, _, s => ([], .outOfSteps s)
  | n + 1, t, s =>
    match step env ifuel t s with
    | (acts, .next s') =>
      let r := run env ifuel n (t + 1) s'
      (acts ++ r.1, r.2)
    | (acts, .ready) => (acts, .finished)
    | (acts, .failed e) => (acts, .done e)
    | (acts, .panicked) => (acts, .panicked)
    | (acts, .stuck) => (acts, .stuck)

/-! ### Concrete environments and data used to instantiate the theorems -/

/-- Base concrete environment: channel open, empty store, no chain head. -/
def env0 : Env where
  channelOpen := fun _ => true
  localHeadRes := .ok none
  chainHeadRes := fun _ => .error ()
  fetchByNumber := fun _ => .item none
  fetchByHash := fun _ => .ok none
  storeGet := fun _ => .ok none
  writeOk := fun _ => true
  revertOk := fun _ _ => true

/-- A valid chain head block used in concrete runs. -/
def chW : LightEthereumBlock := { number := some 9, hash := some 5 }

/-- A valid block used in concrete runs. -/
def bW : BlockWithUncles := { number := some 2, hash := some 22, parentHash := 10 }

/-- Suspected forked block for the concrete reorg: number 5, hash 55, parent 44. -/
def hb : BlockWithUncles := { number := some 5, hash := some 55, parentHash := 44 }

/-- Parent of `hb` on the remote branch: number 4, hash 44; present locally. -/
def pb : BlockWithUncles := { number := some 4, hash := some 44, parentHash := 33 }

/-- Environment where the block write and the revert operation fail, and the
store knows the parent link 20 -> 10. -/
def env3 : Env :=
  { env0 with
    writeOk := fun _ => false
    revertOk := fun _ _ => false
    storeGet := fun h => if h = 20 then .ok (some { parent := some (.hash 10) }) else .ok none }

/-- Environment realizing a depth-1 reorg walk: `hb` is not stored, its parent
`pb` is fetched by hash 44 and is already stored. -/
def env7 : Env :=
  { env0 with
    storeGet := fun h => if h = 44 then .ok (some { parent := some (.hash 33) }) else .ok none
    fetchByHash := fun h => if h = 44 then .ok (some pb) else .ok none }

/-! ### C3 -/

/-- C3: an error of the composite write operation in `AddBlock` transitions to
`PollChainHead` carrying the pre-attempt `old_local_head` (not the added
block's pointer), and an error of the revert composite in `RevertToForkBase`
(either the collect phase failing or a `revert_block_operations` failing)
transitions to `PollChainHead` carrying the `local_head` held before the
attempt (not the fork base); in both cases the resulting `PollChainHead` state
carries no block stream, so the in-flight stream is dropped. -/
theorem add_block_revert_errors_keep_old_local_head
    (env : Env) (ifuel t : Nat) (lh old_lh : Option EthereumBlockPointer)
    (ch : LightEthereumBlock) (ns : List StreamItem) (b : BlockWithUncles)
    (lhp fbp lhp2 fbp2 : EthereumBlockPointer) (ptrs : List EthereumBlockPointer)
    (hopen : env.channelOpen t = true)
    (hw : env.writeOk t = false)
    (hcol : collect_blocks_to_revert env ifuel lhp fbp = .ok ptrs)
    (hrev : (revert_blocks env ptrs).2 = .fail)
    (hcol2 : collect_blocks_to_revert env ifuel lhp2 fbp2 = .fail) :
    step env ifuel t (.addBlock ch ns old_lh b) = ([], .next (.pollChainHead old_lh)) ∧
    step env ifuel t (.revertToForkBase lh ch ns lhp fbp) =
      ((revert_blocks env ptrs).1, .next (.pollChainHead lh)) ∧
    step env ifuel t (.revertToForkBase lh ch ns lhp2 fbp2) =
      ([], .next (.pollChainHead lh)) := by
  refine ⟨?_, ?_, ?_⟩
  · simp [step, hopen, poll_add_block, hw]
  · simp [step, hopen, poll_revert_to_fork_base, hcol, hrev]
  · simp [step, hopen, poll_revert_to_fork_base, hcol2]

/-- Witness for C3 at a concrete environment: the write fails and the machine
returns to `PollChainHead` with the old local head `#1/10`; the revert of
`[#2/20, #1/10]` fails with no event emitted and the machine returns to
`PollChainHead` with the pre-attempt local head `#5/55`; a failing collect
does the same. -/
theorem add_block_revert_errors_keep_old_local_head_witness :
    step env3 2 0 (.addBlock chW [] (some ⟨1, 10⟩) bW) =
      ([], .next (.pollChainHead (some ⟨1, 10⟩))) ∧
    step env3 2 0 (.revertToForkBase (some ⟨5, 55⟩) chW [] ⟨2, 20⟩ ⟨1, 10⟩) =
      ([], .next (.pollChainHead (some ⟨5, 55⟩))) ∧
    step env3 2 0 (.revertToForkBase (some ⟨5, 55⟩) chW [] ⟨3, 99⟩ ⟨1, 10⟩) =
      ([], .next (.pollChainHead (some ⟨5, 55⟩))) := by
  have h := add_block_revert_errors_keep_old_local_head env3 2 0 (some ⟨5, 55⟩)
    (some ⟨1, 10⟩) chW [] bW ⟨2, 20⟩ ⟨1, 10⟩ ⟨3, 99⟩ ⟨1, 10⟩ [⟨2, 20⟩, ⟨1, 10⟩]
    (by decide) (by decide) (by decide) (by decide) (by decide)
  refine ⟨h.1, ?_, h.2.2⟩
  have h2 := h.2.1
  simpa [revert_blocks, run_reverts, env3, env0] using h2

/-! ### C7 -/

/-- C7: when `FetchForkedBlocks` succeeds with the list `l` (head first, fork
base last), the machine pops the fork base (`l.getLast?`) and prepends the
remaining elements `l.dropLast` in reverse order ahead of the carried stream
`ns`, so the oldest forked block is delivered first and the original remaining
stream follows; the machine moves to `RevertToForkBase` with the pre-reorg
local head pointer and the fork base pointer. -/
theorem fetch_forked_blocks_success_prepends_reversed
    (env : Env) (ifuel t : Nat) (lh : Option EthereumBlockPointer)
    (lhp : EthereumBlockPointer) (ch : LightEthereumBlock) (ns : List StreamItem)
    (head fb : BlockWithUncles) (l : List BlockWithUncles)
    (hopen : env.channelOpen t = true)
    (hlh : lh = some lhp)
    (hfb : fetch_forked_blocks env ifuel head = .ok l)
    (hlast : l.getLast? = some fb) :
    step env ifuel t (.fetchForkedBlocks lh ch ns head) =
      ([], .next (.revertToForkBase lh ch
        ((l.dropLast.map (fun b => StreamItem.item (some b))).reverse ++ ns)
        lhp (block_pointer fb))) := by
  subst hlh
  simp [step, hopen, poll_fetch_forked_blocks, hfb, hlast]

/-- Witness for C7: in `env7` the fork walk from `hb` returns `[hb, pb]`; the
fork base `pb` is popped and the remainder `[hb]` is prepended (reversed)
ahead of the empty carried stream. -/
theorem fetch_forked_blocks_success_prepends_reversed_witness :
    step env7 2 0 (.fetchForkedBlocks (some ⟨4, 44⟩) chW [] hb) =
      ([], .next (.revertToForkBase (some ⟨4, 44⟩) chW
        [StreamItem.item (some hb)] ⟨4, 44⟩ ⟨4, 44⟩)) := by
  have h := fetch_forked_blocks_success_prepends_reversed env7 2 0 (some ⟨4, 44⟩)
    ⟨4, 44⟩ chW [] hb pb [hb, pb] (by decide) rfl (by decide) (by decide)
  simpa [block_pointer, pb, hb] using h

/-! ### C8 -/

/-- Helper: a successful fork walk extends its accumulator, so it returns a
list at least as long; in particular a nonempty accumulator gives a nonempty
result. -/
theorem fetch_forked_blocks_aux_ok_ne_nil (env : Env) :
    ∀ (fuel : Nat) (acc l : List BlockWithUncles),
      fetch_forked_blocks_aux env fuel acc = .ok l → acc ≠ [] → l ≠ [] := by
  intro fuel
  induction fuel with
  | zero => intro acc l h; simp [fetch_forked_blocks_aux] at h
  | succ n ih =>
    intro acc l h hacc
    rw [fetch_forked_blocks_aux] at h
    cases hl : acc.getLast? with
    | none => simp [hl] at h
    | some b =>
      simp only [hl] at h
      cases hn : b.number with
      | none => simp [hn] at h
      | some bn =>
        cases hh : b.hash with
        | none => simp [hn, hh] at h
        | some bh =>
          simp only [hn, hh] at h
          cases hs : env.storeGet bh with
          | error e => simp [hs] at h
          | ok o =>
            cases o with
            | none =>
              simp only [hs] at h
              cases hf : env.fetchByHash b.parentHash with
              | error e => simp [hf] at h
              | ok p =>
                cases p with
                | none => simp [hf] at h
                | some parent =>
                  simp only [hf] at h
                  exact ih (acc ++ [parent]) l h (by simp)
            | some e =>
              simp only [hs, WalkRes.ok.injEq] at h
              subst h; exact hacc

/-- Helper: a successful revert collection extends its accumulator, so a
nonempty accumulator gives a nonempty result. -/
theorem collect_blocks_to_revert_aux_ok_ne_nil (env : Env) (fb : EthereumBlockPointer) :
    ∀ (fuel : Nat) (acc l : List EthereumBlockPointer),
      collect_blocks_to_revert_aux env fb fuel acc = .ok l → acc ≠ [] → l ≠ [] := by
  intro fuel
  induction fuel with
  | zero => intro acc l h; simp [collect_blocks_to_revert_aux] at h
  | succ n ih =>
    intro acc l h hacc
    rw [collect_blocks_to_revert_aux] at h
    cases hl : acc.getLast? with
    | none => simp [hl] at h
    | some p =>
      simp only [hl] at h
      by_cases hp : p = fb
      · rw [if_pos hp] at h
        injection h with h2
        subst h2; exact hacc
      · simp only [if_neg hp] at h
        cases hs : env.storeGet p.hash with
        | error e => simp [hs] at h
        | ok o =>
          cases o with
          | none => simp [hs] at h
          | some entity =>
            simp only [hs] at h
            cases hpar : entity.parent with
            | none => simp [hpar] at h
            | some v =>
              cases v with
              | nonString => simp [hpar] at h
              | badHex => simp [hpar] at h
              | hash ph =>
                simp only [hpar] at h
                exact ih _ l h (by simp)

/-- C8: every successful `fetch_forked_blocks` result is nonempty (it contains
at least the input head), and every successful `collect_blocks_to_revert`
result is nonempty (it contains at least the input head pointer); hence the
fork-base `pop().expect(..)` in `FetchForkedBlocks` (i.e. `getLast?` is some)
and the `last().expect(..)` in `revert_blocks` (its result is not the panic
outcome) never hit their panic branches on these results. -/
theorem successful_walks_are_nonempty (env : Env) (ifuel : Nat) :
    (∀ (head : BlockWithUncles) (l : List BlockWithUncles),
      fetch_forked_blocks env ifuel head = .ok l → l ≠ [] ∧ l.getLast?.isSome) ∧
    (∀ (head fb : EthereumBlockPointer) (l : List EthereumBlockPointer),
      collect_blocks_to_revert env ifuel head fb = .ok l →
        l ≠ [] ∧ (revert_blocks env l).2 ≠ .panicked) := by
  constructor
  · intro head l h
    have hne : l ≠ [] := fetch_forked_blocks_aux_ok_ne_nil env ifuel [head] l h (by simp)
    refine ⟨hne, ?_⟩
    cases hl : l.getLast? with
    | none => exact absurd (List.getLast?_eq_none_iff.mp hl) hne
    | some b => simp
  · intro head fb l h
    have hne : l ≠ [] := collect_blocks_to_revert_aux_ok_ne_nil env fb ifuel [head] l h (by simp)
    refine ⟨hne, ?_⟩
    cases hl : l.getLast? with
    | none => exact absurd (List.getLast?_eq_none_iff.mp hl) hne
    | some b =>
      simp only [revert_blocks, hl]
      cases hr : (run_reverts env (l.zip l.tail)).2 <;> simp

/-- Witness for C8 at concrete data: the fork walk in `env7` returns the
nonempty `[hb, pb]`, and the collect in `env3` returns the nonempty
`[#2/20, #1/10]` whose revert does not panic. -/
theorem successful_walks_are_nonempty_witness :
    ([hb, pb] ≠ ([] : List BlockWithUncles) ∧ ([hb, pb] : List BlockWithUncles).getLast?.isSome) ∧
    ([(⟨2, 20⟩ : EthereumBlockPointer), ⟨1, 10⟩] ≠ ([] : List EthereumBlockPointer) ∧
      (revert_blocks env3 [⟨2, 20⟩, ⟨1, 10⟩]).2 ≠ .panicked) := by
  exact ⟨(successful_walks_are_nonempty env7 2).1 hb [hb, pb] (by decide),
    (successful_walks_are_nonempty env3 2).2 ⟨2, 20⟩ ⟨1, 10⟩ [⟨2, 20⟩, ⟨1, 10⟩] (by decide)⟩

/-! ### u64 arithmetic facts -/

/-- u64 addition agrees with unbounded addition when the sum fits. -/
theorem u64add_eq (a b : Nat) (h : a + b < 2 ^ 64) : u64add a b = a + b := by
  unfold u64add
  exact Nat.mod_eq_of_lt h

/-- u64 subtraction agrees with unbounded subtraction when no underflow occurs
and the minuend fits. -/
theorem u64sub_eq (a b : Nat) (hb : b ≤ a) (ha : a < 2 ^ 64) : u64sub a b = a - b := by
  unfold u64sub
  have h1 : a + (2 ^ 64 - b) = (a - b) + 2 ^ 64 := by omega
  rw [h1, Nat.add_mod_right, Nat.mod_eq_of_lt (by omega)]

/-- The `next_block_number` computed by `PollChainHead`, in unbounded
arithmetic: `local_head.number + 1`, or `0` if there is no local head. -/
def next_of (local_head : Option EthereumBlockPointer) : Nat :=
  match local_head with
  | none => 0
  | some p => p.number + 1

/-! ### C1 -/

/-- The claim's range formulas, read over plain (unbounded, truncated-at-zero)
naturals: `next = local_head.number + 1` (0 if none), `size =
min (C.number + 1 - next, 1000)`. -/
def claimed_next_range (local_head : Option EthereumBlockPointer) (chain_head_number : Nat) :
    Nat × Nat :=
  (next_of local_head, min (chain_head_number + 1 - next_of local_head) 1000)

/-- Length of the block stream of the `ProcessBlocks` state a step result
transitions into (0 if it is not such a transition). -/
def stream_length_after (r : List Action × StepRes) : Nat :=
  match r.2 with
  | .next (.processBlocks _ _ ns) => ns.length
  | _ => 0

/-- Environment whose chain head answer is the valid block number 3. -/
def env1c : Env := { env0 with chainHeadRes := fun _ => .ok { number := some 3, hash := some 0 } }

set_option maxRecDepth 4000 in
/-- C1 counterexample: with local head `#5` and valid chain head `#3` (the
chain head moved below the local head), the claim's formulas give
`next = 6`, `remaining = 3 + 1 - 6 = 0` and an empty range, but the machine's
u64 subtraction wraps around, so it queues a block stream of length 1000 —
not a stream over the claimed range. -/
theorem poll_chain_head_range_counterexample :
    stream_length_after (step env1c 1 0 (.pollChainHead (some ⟨5, 0⟩))) = 1000 ∧
    (claimed_next_range (some ⟨5, 0⟩) 3).2 = 0 := by
  constructor
  · rfl
  · rfl

/-- C1 (amended): for every pair (lh, C) with C a valid chain head,
`C.number + 1 < 2^64`, and lh either none or with `lh.number ≤ C.number`, the
machine computes `next = lh.number + 1` (0 if none), `size =
min (C.number + 1 - next, 1000)` and transitions to `ProcessBlocks` with a
block stream over exactly the range `[next, next + size)`. -/
theorem poll_chain_head_builds_claimed_range
    (env : Env) (ifuel t : Nat) (lh : Option EthereumBlockPointer)
    (ch : LightEthereumBlock) (cn hsh : Nat)
    (hopen : env.channelOpen t = true)
    (hch : env.chainHeadRes t = .ok ch)
    (hn : ch.number = some cn)
    (hh : ch.hash = some hsh)
    (hcn : cn + 1 < 2 ^ 64)
    (hlh : ∀ p, lh = some p → p.number ≤ cn) :
    step env ifuel t (.pollChainHead lh) =
      ([], .next (.processBlocks lh ch
        ((List.range (claimed_next_range lh cn).2).map
          (fun i => env.fetchByNumber ((claimed_next_range lh cn).1 + i))))) := by
  have hstep : step env ifuel t (.pollChainHead lh) = poll_poll_chain_head env t lh := by
    simp [step, hopen]
  rw [hstep]
  unfold poll_poll_chain_head
  rw [hch]
  simp only [hn, hh, Option.isNone_some, Bool.or_self, Bool.false_eq_true, if_false,
    Option.getD_some]
  cases lh with
  | none =>
    have hmin : min (cn + 1) 1000 ≤ cn + 1 := min_le_left _ _
    have h1 : u64add cn 1 = cn + 1 := u64add_eq _ _ hcn
    have h2 : u64sub (cn + 1) 0 = cn + 1 := u64sub_eq _ _ (Nat.zero_le _) hcn
    have h3 : u64add 0 (min (cn + 1) 1000) = min (cn + 1) 1000 :=
      (u64add_eq _ _ (by omega)).trans (Nat.zero_add _)
    simp [h1, h2, h3, fetch_blocks, range_u64, List.map_map, claimed_next_range, next_of,
      Function.comp]
  | some p =>
    have hp : p.number ≤ cn := hlh p rfl
    have h1 : u64add p.number 1 = p.number + 1 := u64add_eq _ _ (by omega)
    have h2 : u64add cn 1 = cn + 1 := u64add_eq _ _ hcn
    have h3 : u64sub (cn + 1) (p.number + 1) = cn - p.number :=
      (u64sub_eq (cn + 1) (p.number + 1) (by omega) hcn).trans (by omega)
    have hmin : min (cn - p.number) 1000 ≤ cn - p.number := min_le_left _ _
    have h4 : u64add (p.number + 1) (min (cn - p.number) 1000) =
        p.number + 1 + min (cn - p.number) 1000 := u64add_eq _ _ (by omega)
    have h5 : cn + 1 - (p.number + 1) = cn - p.number := by omega
    simp [h1, h2, h3, h4, h5, fetch_blocks, range_u64, List.map_map, claimed_next_range,
      next_of, Function.comp]

/-- Environment whose chain head answer is the valid block `chW` (number 9). -/
def envW1 : Env := { env0 with chainHeadRes := fun _ => .ok chW }

/-- Witness for C1 (amended) at a concrete input: local head `#4`, chain head
`#9`, so `next = 5`, `size = min(10 - 5, 1000) = 5`, and the machine queues
the stream over `[5, 10)`. -/
theorem poll_chain_head_builds_claimed_range_witness :
    step envW1 1 0 (.pollChainHead (some ⟨4, 1⟩)) =
      ([], .next (.processBlocks (some ⟨4, 1⟩) chW
        [.item none, .item none, .item none, .item none, .item none])) := by
  have h := poll_chain_head_builds_claimed_range envW1 1 0 (some ⟨4, 1⟩) chW 9 5
    rfl rfl rfl rfl (by norm_num)
    (by intro p hp; injection hp with hp2; rw [← hp2]; norm_num)
  exact h.trans (by decide)

/-! ### C9 -/

/-- The claim's stated condition for the PollChainHead arithmetic to stay
within u64: the valid chain head's number is at least the local head's number,
or the local head is none and `chain_head_number + 1` does not overflow. -/
def claimed_head_arith_ok (local_head : Option EthereumBlockPointer) (chain_head_number : Nat) :
    Prop :=
  match local_head with
  | some p => p.number ≤ chain_head_number
  | none => chain_head_number + 1 < 2 ^ 64

/-- The PollChainHead arithmetic (`next_block_number = local_head.number + 1`
or 0, then `remaining = chain_head_number + 1 - next_block_number`) evaluated
in unbounded integers stays within u64: no intermediate overflow and no
subtraction underflow. -/
def head_arith_in_u64 (local_head : Option EthereumBlockPointer) (chain_head_number : Nat) :
    Prop :=
  next_of local_head < 2 ^ 64 ∧ chain_head_number + 1 < 2 ^ 64 ∧
    next_of local_head ≤ chain_head_number + 1

/-- C9 counterexample: at local head number `2^64 - 1` and chain head number
`2^64 - 1`, the claim's condition holds (the chain head's number is at least
the local head's number, and `chain_head_number + 1 >= next_block_number`),
yet the computation does not stay within u64: `chain_head_number + 1` itself
overflows, so the claimed equivalence is false. -/
theorem head_arith_counterexample :
    claimed_head_arith_ok (some ⟨2 ^ 64 - 1, 0⟩) (2 ^ 64 - 1) ∧
    (2 ^ 64 - 1) + 1 ≥ next_of (some ⟨2 ^ 64 - 1, 0⟩) ∧
    ¬ head_arith_in_u64 (some ⟨2 ^ 64 - 1, 0⟩) (2 ^ 64 - 1) := by
  refine ⟨?_, ?_, ?_⟩
  · show (2 ^ 64 - 1 : Nat) ≤ 2 ^ 64 - 1
    exact le_refl _
  · show (2 ^ 64 - 1 : Nat) + 1 ≥ (2 ^ 64 - 1) + 1
    exact le_refl _
  · intro h
    have h2 := h.2.1
    omega

/-- C9 (amended): the PollChainHead u64 expression stays within u64 iff
`chain_head_number + 1` does not overflow AND the valid chain head's number is
at least the local head's number (vacuous when the local head is none); under
that condition the machine's wrap-around arithmetic agrees with the unbounded
value `chain_head_number + 1 - next_block_number`. -/
theorem head_arith_in_u64_iff (lh : Option EthereumBlockPointer) (cn : Nat) :
    (head_arith_in_u64 lh cn ↔
      cn + 1 < 2 ^ 64 ∧ (lh = none ∨ ∃ p, lh = some p ∧ p.number ≤ cn)) ∧
    (head_arith_in_u64 lh cn →
      u64sub (u64add cn 1) (next_of lh) = cn + 1 - next_of lh) := by
  constructor
  · cases lh with
    | none =>
      simp only [head_arith_in_u64, next_of]
      constructor
      · intro h; exact ⟨h.2.1, Or.inl trivial⟩
      · intro h; exact ⟨by positivity, h.1, Nat.zero_le _⟩
    | some p =>
      simp only [head_arith_in_u64, next_of]
      constructor
      · intro h
        refine ⟨h.2.1, Or.inr ⟨p, rfl, ?_⟩⟩
        omega
      · rintro ⟨h1, h2 | ⟨q, hq, hle⟩⟩
        · exact absurd h2 (by simp)
        · injection hq with hq2
          subst hq2
          exact ⟨by omega, h1, by omega⟩
  · intro h
    obtain ⟨h1, h2, h3⟩ := h
    rw [u64add_eq _ _ h2, u64sub_eq _ _ h3 h2]

/-- Witness for C9 (amended) at a concrete input: local head number 4, chain
head number 9; the arithmetic stays in u64 and the machine's wrap-around
subtraction gives the unbounded value `10 - 5 = 5`. -/
theorem head_arith_in_u64_iff_witness :
    head_arith_in_u64 (some ⟨4, 1⟩) 9 ∧
    u64sub (u64add 9 1) (next_of (some ⟨4, 1⟩)) = 5 := by
  have hin : head_arith_in_u64 (some ⟨4, 1⟩) 9 :=
    (head_arith_in_u64_iff (some ⟨4, 1⟩) 9).1.mpr
      ⟨by norm_num, Or.inr ⟨⟨4, 1⟩, rfl, by norm_num⟩⟩
  refine ⟨hin, ?_⟩
  have h := (head_arith_in_u64_iff (some ⟨4, 1⟩) 9).2 hin
  rw [h]
  rfl

/-! ### C2 -/

/-- Environment whose downstream channel is closed at every step. -/
def envClosed : Env := { env0 with channelOpen := fun _ => false }

/-- C2 counterexample: with the downstream channel closed, the machine (here
in the `Start` state) resolves with the `Failed` error outcome — the
`try_ready!` send error — not with the (never used) clean `Ready` outcome; so
channel closure does produce the Failed outcome. -/
theorem channel_closed_gives_failed :
    step envClosed 0 0 .start = ([], .failed .channelClosed) ∧
    (step envClosed 0 0 .start).2 ≠ .ready := by
  constructor
  · rfl
  · intro h
    simp [step, envClosed, env0] at h

/-- Helper: the VetBlock handler never produces the Failed outcome. -/
theorem poll_vet_block_no_failed (lh : Option EthereumBlockPointer) (ch : LightEthereumBlock)
    (ns : List StreamItem) (b : BlockWithUncles) (acts : List Action) (e : ErrKind) :
    poll_vet_block lh ch ns b ≠ (acts, StepRes.failed e) := by
  unfold poll_vet_block
  by_cases h1 : (b.number.isNone || b.hash.isNone) = true
  · simp [h1]
  · simp only [if_neg h1]
    by_cases h2 : b.number.getD 0 < (match lh with | none => 0 | some ptr => ptr.number)
    · simp [h2]
    · simp only [if_neg h2]
      by_cases h3 : parent_ptr b ≠ lh
      · simp [h3]
      · simp [h3]

/-- C2 (amended): in every state, if the downstream channel is closed the
machine terminates at once, but through the `Failed` error outcome (the send
error propagated by `try_ready!`); conversely the `Failed` outcome arises only
from channel closure (in any state) or from a failed initial local-head load
in `LoadLocalHead`. -/
theorem closed_channel_terminates_failed_characterization
    (env : Env) (ifuel t : Nat) (s : MState) :
    (env.channelOpen t = false → step env ifuel t s = ([], .failed .channelClosed)) ∧
    (∀ acts e, step env ifuel t s = (acts, .failed e) →
      (env.channelOpen t = false ∧ e = .channelClosed) ∨
      (s = .loadLocalHead ∧ e = .loadLocalHeadFailed ∧ env.localHeadRes = .error ())) := by
  constructor
  · intro hclosed
    simp [step, hclosed]
  · intro acts e h
    by_cases hc : env.channelOpen t = true
    · right
      cases s with
      | start =>
        have hs : step env ifuel t .start = ([], .next .loadLocalHead) := by simp [step, hc]
        rw [hs] at h; simp at h
      | loadLocalHead =>
        have hs : step env ifuel t .loadLocalHead = poll_load_local_head env := by
          simp [step, hc]
        rw [hs] at h
        unfold poll_load_local_head at h
        cases hlr : env.localHeadRes with
        | error u =>
          rw [hlr] at h
          cases u
          refine ⟨rfl, ?_, ?_⟩
          · injection h with h1 h2
            injection h2 with h3
            exact h3.symm
          · rfl
        | ok lh => simp [hlr] at h
      | pollChainHead lh =>
        have hs : step env ifuel t (.pollChainHead lh) = poll_poll_chain_head env t lh := by
          simp [step, hc]
        rw [hs] at h
        unfold poll_poll_chain_head at h
        cases hch : env.chainHeadRes t with
        | error u => simp [hch] at h
        | ok ch =>
          simp only [hch] at h
          by_cases hv : (ch.number.isNone || ch.hash.isNone) = true
          · simp [hv] at h
          · simp [hv] at h
      | processBlocks lh ch ns =>
        have hs : step env ifuel t (.processBlocks lh ch ns) = poll_process_blocks lh ch ns := by
          simp [step, hc]
        rw [hs] at h
        cases ns with
        | nil => simp [poll_process_blocks] at h
        | cons i rest =>
          cases i with
          | errItem => simp [poll_process_blocks] at h
          | item ob =>
            cases ob with
            | none => simp [poll_process_blocks] at h
            | some b => simp [poll_process_blocks] at h
      | vetBlock lh ch ns b =>
        have hs : step env ifuel t (.vetBlock lh ch ns b) = poll_vet_block lh ch ns b := by
          simp [step, hc]
        rw [hs] at h
        exact absurd h (poll_vet_block_no_failed lh ch ns b acts e)
      | fetchForkedBlocks lh ch ns b =>
        have hs : step env ifuel t (.fetchForkedBlocks lh ch ns b) =
            poll_fetch_forked_blocks env ifuel lh ch ns b := by
          simp [step, hc]
        rw [hs] at h
        unfold poll_fetch_forked_blocks at h
        cases hff : fetch_forked_blocks env ifuel b with
        | ok l =>
          simp only [hff] at h
          cases hl : l.getLast? with
          | none => simp [hl] at h
          | some fb =>
            simp only [hl] at h
            cases lh with
            | none => simp at h
            | some lhp => simp at h
        | fail => simp [hff] at h
        | panicked => simp [hff] at h
        | diverge => simp [hff] at h
      | revertToForkBase lh ch ns lhp fbp =>
        have hs : step env ifuel t (.revertToForkBase lh ch ns lhp fbp) =
            poll_revert_to_fork_base env ifuel lh ch ns lhp fbp := by
          simp [step, hc]
        rw [hs] at h
        unfold poll_revert_to_fork_base at h
        cases hcol : collect_blocks_to_revert env ifuel lhp fbp with
        | ok ptrs =>
          simp only [hcol] at h
          cases hr : (revert_blocks env ptrs).2 with
          | ok p => simp [hr] at h
          | fail => simp [hr] at h
          | panicked => simp [hr] at h
          | diverge => simp [hr] at h
        | fail => simp [hcol] at h
        | panicked => simp [hcol] at h
        | diverge => simp [hcol] at h
      | addBlock ch ns olh b =>
        have hs : step env ifuel t (.addBlock ch ns olh b) = poll_add_block env t ch ns olh b := by
          simp [step, hc]
        rw [hs] at h
        unfold poll_add_block at h
        by_cases hw : env.writeOk t = true
        · simp [hw] at h
        · simp [hw] at h
    · left
      have hc2 : env.channelOpen t = false := by
        cases hcc : env.channelOpen t
        · rfl
        · exact absurd hcc hc
      unfold step at h
      rw [if_neg (by rw [hc2]; exact Bool.false_ne_true)] at h
      injection h with h1 h2
      injection h2 with h3
      exact ⟨hc2, h3.symm⟩

/-- Witness for C2 (amended): with the channel closed, the machine in
`PollChainHead` terminates with the `Failed` channel-closed outcome. -/
theorem closed_channel_terminates_failed_characterization_witness :
    step envClosed 0 1 (.pollChainHead none) = ([], .failed .channelClosed) :=
  (closed_channel_terminates_failed_characterization envClosed 0 1 (.pollChainHead none)).1 rfl

/-! ### C5 -/

/-- Helper: when every revert operation over the consecutive pairs succeeds,
`run_reverts` emits, for each pair in order, the successful store revert
followed by the `Revert` event, and reports success. -/
theorem run_reverts_all_ok (env : Env)
    (pairs : List (EthereumBlockPointer × EthereumBlockPointer))
    (hok : ∀ ft ∈ pairs, env.revertOk ft.1 ft.2 = true) :
    run_reverts env pairs =
      (pairs.flatMap (fun ft => [Action.reverted ft.1 ft.2,
        Action.emitted (.revert ft.1 ft.2)]), true) := by
  induction pairs with
  | nil => simp [run_reverts]
  | cons ft rest ih =>
    obtain ⟨f, t⟩ := ft
    have hf : env.revertOk f t = true := hok (f, t) (by simp)
    have hrest : ∀ ft ∈ rest, env.revertOk ft.1 ft.2 = true :=
      fun x hx => hok x (List.mem_cons_of_mem _ hx)
    simp [run_reverts, hf, ih hrest]

/-- C5: for a collected revert list `ptrs = [p0, ..., pk]` (p0 the local head
pointer, pk the fork base), when every `revert_block_operations` succeeds, the
revert sequence performs, for each consecutive pair `(p_i, p_{i+1})` in order
(descending height), the store revert and then emits `Revert from p_i to
p_{i+1}`, and resolves to the fork base `pk`; the machine step then makes the
fork base the new local head and continues with the carried stream. -/
theorem revert_sequence_events_and_new_local_head
    (env : Env) (ifuel t : Nat) (lh : Option EthereumBlockPointer)
    (ch : LightEthereumBlock) (ns : List StreamItem)
    (lhp fbp fb : EthereumBlockPointer) (ptrs : List EthereumBlockPointer)
    (hopen : env.channelOpen t = true)
    (hcol : collect_blocks_to_revert env ifuel lhp fbp = .ok ptrs)
    (hlast : ptrs.getLast? = some fb)
    (hok : ∀ ft ∈ ptrs.zip ptrs.tail, env.revertOk ft.1 ft.2 = true) :
    revert_blocks env ptrs =
      ((ptrs.zip ptrs.tail).flatMap (fun ft => [Action.reverted ft.1 ft.2,
        Action.emitted (.revert ft.1 ft.2)]), .ok fb) ∧
    step env ifuel t (.revertToForkBase lh ch ns lhp fbp) =
      ((ptrs.zip ptrs.tail).flatMap (fun ft => [Action.reverted ft.1 ft.2,
        Action.emitted (.revert ft.1 ft.2)]),
        .next (.processBlocks (some fb) ch ns)) := by
  have h1 : revert_blocks env ptrs =
      ((ptrs.zip ptrs.tail).flatMap (fun ft => [Action.reverted ft.1 ft.2,
        Action.emitted (.revert ft.1 ft.2)]), .ok fb) := by
    unfold revert_blocks
    rw [hlast]
    simp [run_reverts_all_ok env _ hok]
  refine ⟨h1, ?_⟩
  have hs : step env ifuel t (.revertToForkBase lh ch ns lhp fbp) =
      poll_revert_to_fork_base env ifuel lh ch ns lhp fbp := by
    simp [step, hopen]
  rw [hs]
  unfold poll_revert_to_fork_base
  rw [hcol]
  simp [h1]

/-- Environment for the concrete revert sequence: reverts succeed and the
store knows the parent link 20 -> 10. -/
def env5 : Env :=
  { env0 with
    storeGet := fun h => if h = 20 then .ok (some { parent := some (.hash 10) }) else .ok none }

/-- Witness for C5: collecting from `#2/20` down to fork base `#1/10` gives
`[#2/20, #1/10]`; the revert sequence performs the store revert then emits
`Revert from #2/20 to #1/10`, resolves to `#1/10`, and the machine continues
in `ProcessBlocks` with local head `#1/10`. -/
theorem revert_sequence_events_and_new_local_head_witness :
    revert_blocks env5 [⟨2, 20⟩, ⟨1, 10⟩] =
      ([Action.reverted ⟨2, 20⟩ ⟨1, 10⟩,
        Action.emitted (.revert ⟨2, 20⟩ ⟨1, 10⟩)], .ok ⟨1, 10⟩) ∧
    step env5 2 0 (.revertToForkBase (some ⟨2, 20⟩) chW [] ⟨2, 20⟩ ⟨1, 10⟩) =
      ([Action.reverted ⟨2, 20⟩ ⟨1, 10⟩,
        Action.emitted (.revert ⟨2, 20⟩ ⟨1, 10⟩)],
        .next (.processBlocks (some ⟨1, 10⟩) chW [])) := by
  have h := revert_sequence_events_and_new_local_head env5 2 0 (some ⟨2, 20⟩) chW []
    ⟨2, 20⟩ ⟨1, 10⟩ ⟨1, 10⟩ [⟨2, 20⟩, ⟨1, 10⟩] (by decide) (by decide) (by decide)
    (by decide)
  exact ⟨h.1.trans (by decide), h.2.trans (by decide)⟩

/-! ### C4 -/

/-- Links along a fork-walk list: every element except the last is a valid
block that is absent from the local store and whose parent-hash fetch returned
exactly the next element. -/
def walk_linked (env : Env) (l : List BlockWithUncles) : Prop :=
  ∀ i b b2, l[i]? = some b → l[i + 1]? = some b2 →
    b.number.isSome ∧ b.hash.isSome ∧
    env.storeGet (b.hash.getD 0) = .ok none ∧
    env.fetchByHash b.parentHash = .ok (some b2)

/-- Helper: extending a linked walk by the fetched parent of its last element
keeps it linked. -/
theorem walk_linked_append (env : Env) (l : List BlockWithUncles) (b p : BlockWithUncles)
    (hl : l.getLast? = some b) (hw : walk_linked env l)
    (hn : b.number.isSome) (hh : b.hash.isSome)
    (hs : env.storeGet (b.hash.getD 0) = .ok none)
    (hf : env.fetchByHash b.parentHash = .ok (some p)) :
    walk_linked env (l ++ [p]) := by
  intro i x y hx hy
  have hacc : l ≠ [] := by intro hc; rw [hc] at hl; simp at hl
  have hpos : 0 < l.length := List.length_pos.mpr hacc
  by_cases hi : i + 1 < l.length
  · rw [List.getElem?_append_left (by omega)] at hx
    rw [List.getElem?_append_left hi] at hy
    exact hw i x y hx hy
  · have hlt : i + 1 < (l ++ [p]).length := by
      by_contra hge
      rw [List.getElem?_eq_none (by omega)] at hy
      exact Option.noConfusion hy
    have hlen : (l ++ [p]).length = l.length + 1 := by simp
    have hieq : i + 1 = l.length := by omega
    have hyp : y = p := by
      rw [List.getElem?_append_right (by omega), hieq, Nat.sub_self] at hy
      simp only [List.getElem?_cons_zero] at hy
      exact (Option.some_inj.mp hy).symm
    have hxb : x = b := by
      rw [List.getElem?_append_left (by omega)] at hx
      rw [List.getLast?_eq_getElem? l] at hl
      have hieq2 : l.length - 1 = i := by omega
      rw [hieq2] at hl
      exact Option.some_inj.mp (hx.symm.trans hl)
    subst hyp; subst hxb
    exact ⟨hn, hh, hs, hf⟩

/-- Helper: full characterization of a successful fork walk, generalized over
the accumulator: the result extends the accumulator's links, starts with the
same head, and ends in a valid block that is present in the local store. -/
theorem fetch_forked_blocks_aux_spec (env : Env) :
    ∀ (fuel : Nat) (acc l : List BlockWithUncles),
      fetch_forked_blocks_aux env fuel acc = .ok l →
      walk_linked env acc →
      walk_linked env l ∧ l.head? = acc.head? ∧
      (∀ b, l.getLast? = some b →
        b.number.isSome ∧ b.hash.isSome ∧
        ∃ e, env.storeGet (b.hash.getD 0) = .ok (some e)) := by
  intro fuel
  induction fuel with
  | zero => intro acc l h _; simp [fetch_forked_blocks_aux] at h
  | succ n ih =>
    intro acc l h hw
    rw [fetch_forked_blocks_aux] at h
    cases hl : acc.getLast? with
    | none => simp [hl] at h
    | some b =>
      simp only [hl] at h
      cases hn : b.number with
      | none => simp [hn] at h
      | some bn =>
        cases hh : b.hash with
        | none => simp [hn, hh] at h
        | some bh =>
          simp only [hn, hh] at h
          cases hs : env.storeGet bh with
          | error e => simp [hs] at h
          | ok o =>
            cases o with
            | none =>
              simp only [hs] at h
              cases hf : env.fetchByHash b.parentHash with
              | error e => simp [hf] at h
              | ok po =>
                cases po with
                | none => simp [hf] at h
                | some parent =>
                  simp only [hf] at h
                  have hacc : acc ≠ [] := by intro hc; rw [hc] at hl; simp at hl
                  have hw2 : walk_linked env (acc ++ [parent]) :=
                    walk_linked_append env acc b parent hl hw
                      (by simp [hn]) (by simp [hh])
                      (by rw [hh]; exact hs) (hf)
                  have hr := ih (acc ++ [parent]) l h hw2
                  refine ⟨hr.1, ?_, hr.2.2⟩
                  rw [hr.2.1]
                  cases acc with
                  | nil => exact absurd rfl hacc
                  | cons a as => simp
            | some e =>
              simp only [hs] at h
              injection h with h2
              subst h2
              refine ⟨hw, rfl, ?_⟩
              intro b2 hb2
              rw [hl] at hb2
              injection hb2 with h3
              subst h3
              exact ⟨by simp [hn], by simp [hh], e, by rw [hh]; exact hs⟩

/-- C4: a successful `fetch_forked_blocks env fuel head = ok l` walk returns
the list in walk order `[head, head.parent, ..., fork_base]`: `l` starts with
`head`, every element except the last is absent from the local store and its
parent-hash fetch returned exactly the next element (so the fork base is the
first block on the walk already present in the store), and the last element is
present in the store; moreover one loop iteration fails with an error when the
parent fetch returns none, when the store lookup errors, or when the parent
fetch errors. -/
theorem fetch_forked_blocks_characterization (env : Env) :
    (∀ (fuel : Nat) (head : BlockWithUncles) (l : List BlockWithUncles),
      fetch_forked_blocks env fuel head = .ok l →
      l.head? = some head ∧
      (∀ i b b2, l[i]? = some b → l[i + 1]? = some b2 →
        b.number.isSome ∧ b.hash.isSome ∧
        env.storeGet (b.hash.getD 0) = .ok none ∧
        env.fetchByHash b.parentHash = .ok (some b2)) ∧
      (∀ b, l.getLast? = some b →
        b.number.isSome ∧ b.hash.isSome ∧
        ∃ e, env.storeGet (b.hash.getD 0) = .ok (some e))) ∧
    (∀ (fuel : Nat) (blocks : List BlockWithUncles) (b : BlockWithUncles) (bn bh : Nat),
      blocks.getLast? = some b → b.number = some bn → b.hash = some bh →
      (env.storeGet bh = .ok none → env.fetchByHash b.parentHash = .ok none →
        fetch_forked_blocks_aux env (fuel + 1) blocks = .fail) ∧
      (env.storeGet bh = .error () →
        fetch_forked_blocks_aux env (fuel + 1) blocks = .fail) ∧
      (env.storeGet bh = .ok none → env.fetchByHash b.parentHash = .error () →
        fetch_forked_blocks_aux env (fuel + 1) blocks = .fail)) := by
  constructor
  · intro fuel head l h
    have htriv : walk_linked env [head] := by
      intro i b b2 hb hb2
      rw [List.getElem?_eq_none (by simp)] at hb2
      exact Option.noConfusion hb2
    have hr := fetch_forked_blocks_aux_spec env fuel [head] l h htriv
    exact ⟨by rw [hr.2.1]; rfl, hr.1, hr.2.2⟩
  · intro fuel blocks b bn bh hl hn hh
    refine ⟨?_, ?_, ?_⟩
    · intro hs hf
      rw [fetch_forked_blocks_aux, hl]
      simp only [hn, hh, hs, hf]
    · intro hs
      rw [fetch_forked_blocks_aux, hl]
      simp only [hn, hh, hs]
    · intro hs hf
      rw [fetch_forked_blocks_aux, hl]
      simp only [hn, hh, hs, hf]

/-- Witness for C4 at `env7`: the walk from `hb` succeeds with `[hb, pb]`
(head first, fork base `pb` last, `hb` absent from the store and its parent
fetch returning `pb`, `pb` present in the store), and a walk whose head's
parent fetch returns none fails. -/
theorem fetch_forked_blocks_characterization_witness :
    ([hb, pb] : List BlockWithUncles).head? = some hb ∧
    env7.storeGet 55 = .ok none ∧
    env7.fetchByHash 44 = .ok (some pb) ∧
    (∃ e, env7.storeGet 44 = .ok (some e)) ∧
    fetch_forked_blocks_aux env7 1
      [{ number := some 7, hash := some 77, parentHash := 88 }] = .fail := by
  have h := fetch_forked_blocks_characterization env7
  have h1 := h.1 2 hb [hb, pb] (by decide)
  have hlink := h1.2.1 0 hb pb rfl rfl
  have hlast := h1.2.2 pb (by decide)
  have h2 := (h.2 0 [{ number := some 7, hash := some 77, parentHash := 88 }]
    { number := some 7, hash := some 77, parentHash := 88 } 7 77 rfl rfl rfl).1
    rfl rfl
  exact ⟨h1.1, hlink.2.2.1, hlink.2.2.2, hlast.2.2, h2⟩

/-! ### C10 -/

/-- Helper: the last element of the walk front `[q 0, ..., q n]`. -/
theorem front_getLast? (q : Nat → EthereumBlockPointer) (n : Nat) :
    ((List.range (n + 1)).map q).getLast? = some (q n) := by
  have hne : (List.range (n + 1)).map q ≠ [] := by simp
  have hlen : ((List.range (n + 1)).map q).length - 1 = n := by simp
  rw [List.getLast?_eq_getElem?, hlen, List.getElem?_map,
    List.getElem?_range (Nat.lt_succ_self n)]
  rfl

/-- Helper: one pushing iteration of the revert collection along the stored
parent chain `q`: from the front ending at `q j` (with `j` strictly before the
fork base) the loop pushes exactly `q (j + 1)`. -/
theorem collect_aux_step (env : Env) (q : Nat → EthereumBlockPointer)
    (head fork_base : EthereumBlockPointer) (N : Nat)
    (hbase : q N = fork_base)
    (hnum : ∀ i, i ≤ N → (q i).number = head.number - i)
    (hNle : N ≤ head.number) (hbound : head.number < 2 ^ 64)
    (hstore : ∀ i, i < N →
      env.storeGet (q i).hash = .ok (some { parent := some (.hash ((q (i + 1)).hash)) }))
    (j : Nat) (hjlt : j < N) (fuel : Nat) :
    collect_blocks_to_revert_aux env fork_base (fuel + 1) ((List.range (j + 1)).map q) =
      collect_blocks_to_revert_aux env fork_base fuel ((List.range (j + 2)).map q) := by
  have hfbnum : fork_base.number = head.number - N := by
    rw [← hbase]; exact hnum N (le_refl N)
  have hne : q j ≠ fork_base := by
    intro he
    have h1 := hnum j (le_of_lt hjlt)
    rw [he, hfbnum] at h1
    omega
  have hpush : ({ number := u64sub (q j).number 1, hash := (q (j + 1)).hash } :
      EthereumBlockPointer) = q (j + 1) := by
    have ha := hnum j (le_of_lt hjlt)
    have hb := hnum (j + 1) hjlt
    have h1 : u64sub (q j).number 1 = (q (j + 1)).number := by
      rw [u64sub_eq _ _ (by omega) (by omega)]
      omega
    rw [h1]
  have hfront : (List.range (j + 2)).map q = ((List.range (j + 1)).map q) ++ [q (j + 1)] := by
    rw [List.range_succ, List.map_append]
    rfl
  rw [collect_blocks_to_revert_aux]
  simp only [front_getLast?]
  rw [if_neg hne]
  simp only [hstore j hjlt]
  rw [hpush, ← hfront]

/-- Helper: with fuel strictly exceeding the remaining distance, the revert
collection from front `j` reaches the fork base and returns the full front. -/
theorem collect_aux_reaches (env : Env) (q : Nat → EthereumBlockPointer)
    (head fork_base : EthereumBlockPointer) (N : Nat)
    (hbase : q N = fork_base)
    (hnum : ∀ i, i ≤ N → (q i).number = head.number - i)
    (hNle : N ≤ head.number) (hbound : head.number < 2 ^ 64)
    (hstore : ∀ i, i < N →
      env.storeGet (q i).hash = .ok (some { parent := some (.hash ((q (i + 1)).hash)) })) :
    ∀ (fuel j : Nat), j ≤ N → N - j < fuel →
      collect_blocks_to_revert_aux env fork_base fuel ((List.range (j + 1)).map q) =
        .ok ((List.range (N + 1)).map q) := by
  intro fuel
  induction fuel with
  | zero => intro j hj hf; exact absurd hf (Nat.not_lt_zero _)
  | succ f ih =>
    intro j hj hf
    by_cases hjN : j = N
    · subst hjN
      rw [collect_blocks_to_revert_aux]
      simp only [front_getLast?]
      rw [if_pos hbase]
    · have hjlt : j < N := lt_of_le_of_ne hj hjN
      rw [collect_aux_step env q head fork_base N hbase hnum hNle hbound hstore j hjlt f]
      exact ih (j + 1) (by omega) (by omega)

/-- Helper: with fuel equal to the remaining distance, the revert collection
runs out of fuel (the real loop would still be iterating). -/
theorem collect_aux_diverges (env : Env) (q : Nat → EthereumBlockPointer)
    (head fork_base : EthereumBlockPointer) (N : Nat)
    (hbase : q N = fork_base)
    (hnum : ∀ i, i ≤ N → (q i).number = head.number - i)
    (hNle : N ≤ head.number) (hbound : head.number < 2 ^ 64)
    (hstore : ∀ i, i < N →
      env.storeGet (q i).hash = .ok (some { parent := some (.hash ((q (i + 1)).hash)) })) :
    ∀ (fuel j : Nat), j ≤ N → N - j = fuel →
      collect_blocks_to_revert_aux env fork_base fuel ((List.range (j + 1)).map q) =
        .diverge := by
  intro fuel
  induction fuel with
  | zero => intro j hj hf; rfl
  | succ f ih =>
    intro j hj hf
    have hjlt : j < N := by omega
    rw [collect_aux_step env q head fork_base N hbase hnum hNle hbound hstore j hjlt f]
    exact ih (j + 1) (by omega) (by omega)

/-- C10: under the precondition that `fork_base.number <= head.number` and the
stored parent references from `head` form the chain `q 0 = head, q 1, ...`
whose numbers decrease by exactly 1 per step down to `q N = fork_base` (with
`N = head.number - fork_base.number`), the collect loop succeeds with fuel
`N + 1` or more (returning after exactly `N` pushing iterations), still runs
with fuel `N`, and the returned list has `N + 1` pointers, starts at `head`,
ends at `fork_base`, and has strictly decreasing numbers (consecutive numbers
differ by exactly 1). -/
theorem collect_blocks_to_revert_exact_termination
    (env : Env) (q : Nat → EthereumBlockPointer)
    (head fork_base : EthereumBlockPointer) (N : Nat)
    (hN : N = head.number - fork_base.number)
    (hfb : fork_base.number ≤ head.number)
    (hhead : q 0 = head) (hbase : q N = fork_base)
    (hnum : ∀ i, i ≤ N → (q i).number = head.number - i)
    (hbound : head.number < 2 ^ 64)
    (hstore : ∀ i, i < N →
      env.storeGet (q i).hash = .ok (some { parent := some (.hash ((q (i + 1)).hash)) })) :
    (∀ fuel, N + 1 ≤ fuel →
      collect_blocks_to_revert env fuel head fork_base = .ok ((List.range (N + 1)).map q)) ∧
    collect_blocks_to_revert env N head fork_base = .diverge ∧
    ((List.range (N + 1)).map q).length = N + 1 ∧
    ((List.range (N + 1)).map q).head? = some head ∧
    ((List.range (N + 1)).map q).getLast? = some fork_base ∧
    (∀ i a b, ((List.range (N + 1)).map q)[i]? = some a →
      ((List.range (N + 1)).map q)[i + 1]? = some b → b.number + 1 = a.number) := by
  have hNle : N ≤ head.number := by omega
  have h0 : (List.range (0 + 1)).map q = [head] := by
    rw [List.range_succ]
    simp [hhead]
  refine ⟨?_, ?_, by simp, ?_, ?_, ?_⟩
  · intro fuel hfuel
    unfold collect_blocks_to_revert
    rw [← h0]
    exact collect_aux_reaches env q head fork_base N hbase hnum hNle hbound hstore
      fuel 0 (Nat.zero_le _) (by omega)
  · unfold collect_blocks_to_revert
    rw [← h0]
    exact collect_aux_diverges env q head fork_base N hbase hnum hNle hbound hstore
      N 0 (Nat.zero_le _) (by omega)
  · rw [List.head?_eq_getElem?, List.getElem?_map, List.getElem?_range (Nat.succ_pos N)]
    simp [hhead]
  · rw [front_getLast?, hbase]
  · intro i a b ha hb
    have hlen : ((List.range (N + 1)).map q).length = N + 1 := by simp
    have hib : i + 1 < N + 1 := by
      by_contra hge
      rw [List.getElem?_eq_none (by rw [hlen]; omega)] at hb
      exact Option.noConfusion hb
    rw [List.getElem?_map, List.getElem?_range (by omega)] at ha
    rw [List.getElem?_map, List.getElem?_range (by omega)] at hb
    simp only [Option.map_some'] at ha hb
    injection ha with ha2
    injection hb with hb2
    subst ha2; subst hb2
    have h1 := hnum i (by omega)
    have h2 := hnum (i + 1) (by omega)
    omega

/-- The concrete stored parent chain `#3/30 -> #2/20 -> #1/10`. -/
def q10 : Nat → EthereumBlockPointer := fun i =>
  if i = 0 then ⟨3, 30⟩ else if i = 1 then ⟨2, 20⟩ else ⟨1, 10⟩

/-- Environment storing the parent chain `30 -> 20 -> 10`. -/
def env10 : Env :=
  { env0 with
    storeGet := fun h =>
      if h = 30 then .ok (some { parent := some (.hash 20) })
      else if h = 20 then .ok (some { parent := some (.hash 10) })
      else .ok none }

/-- Witness for C10: collecting from `#3/30` down to fork base `#1/10`
(`N = 2`) succeeds with fuel 3 returning the 3 pointers in decreasing order,
and runs out of fuel with fuel 2. -/
theorem collect_blocks_to_revert_exact_termination_witness :
    collect_blocks_to_revert env10 3 ⟨3, 30⟩ ⟨1, 10⟩ =
      .ok [⟨3, 30⟩, ⟨2, 20⟩, ⟨1, 10⟩] ∧
    collect_blocks_to_revert env10 2 ⟨3, 30⟩ ⟨1, 10⟩ = .diverge := by
  have h := collect_blocks_to_revert_exact_termination env10 q10 ⟨3, 30⟩ ⟨1, 10⟩ 2
    rfl (by norm_num) rfl rfl
    (by intro i hi; interval_cases i <;> rfl)
    (by norm_num)
    (by intro i hi; interval_cases i <;> rfl)
  exact ⟨(h.1 3 (by norm_num)).trans (by decide), h.2.1⟩

/-! ### C6 -/

/-- The successful store operation that must precede the emission of an
event: a `write_block` completion for `AddBlock`, a
`revert_block_operations` completion for `Revert`. -/
def op_of (e : NetworkIndexerEvent) : Action :=
  match e with
  | .addBlock p => .wrote p
  | .revert f t => .reverted f t

/-- Durability of a trace: every emitted event is preceded, within the trace,
by its corresponding successful store operation. -/
def emits_after_ops (l : List Action) : Prop :=
  ∀ pre e suf, l = pre ++ Action.emitted e :: suf → op_of e ∈ pre

/-- Helper: the empty trace is durable. -/
theorem emits_after_ops_nil : emits_after_ops [] := by
  intro pre e suf h
  exact absurd h (by simp)

/-- Helper: an operation immediately followed by its event is durable. -/
theorem emits_after_ops_op_emit (a : Action) (ev : NetworkIndexerEvent)
    (hop : op_of ev = a) : emits_after_ops [a, Action.emitted ev] := by
  intro pre e suf h
  cases pre with
  | nil =>
    simp only [List.nil_append] at h
    injection h with h1 h2
    rw [← hop] at h1
    cases ev <;> simp [op_of] at h1
  | cons x rest =>
    cases rest with
    | nil =>
      simp only [List.cons_append, List.nil_append] at h
      injection h with h1 h2
      injection h2 with h3 h4
      injection h3 with h5
      subst h5
      rw [hop, h1]
      exact List.mem_singleton_self _
    | cons y rest2 =>
      simp only [List.cons_append] at h
      injection h with h1 h2
      injection h2 with h3 h4
      exact absurd h4.symm (by simp)

/-- Helper: concatenating durable traces gives a durable trace. -/
theorem emits_after_ops_append {a b : List Action}
    (ha : emits_after_ops a) (hb : emits_after_ops b) : emits_after_ops (a ++ b) := by
  intro pre e suf h
  rcases List.append_eq_append_iff.mp h with ⟨a2, hpre, hb2⟩ | ⟨c2, ha2, hc2⟩
  · rw [hpre]
    exact List.mem_append_right a (hb a2 e suf hb2)
  · cases c2 with
    | nil =>
      simp only [List.nil_append] at hc2
      exact absurd (hb [] e suf (by rw [← hc2]; rfl)) (List.not_mem_nil _)
    | cons x rest =>
      simp only [List.cons_append] at hc2
      injection hc2 with h1 h2
      rw [← h1] at ha2
      exact ha pre e rest ha2

/-- Helper: the revert/emit sequence produces a durable trace: each `Revert`
event is emitted right after its successful store revert. -/
theorem run_reverts_emits_after_ops (env : Env)
    (pairs : List (EthereumBlockPointer × EthereumBlockPointer)) :
    emits_after_ops (run_reverts env pairs).1 := by
  induction pairs with
  | nil => exact emits_after_ops_nil
  | cons ft rest ih =>
    obtain ⟨f, t⟩ := ft
    unfold run_reverts
    by_cases hok : env.revertOk f t = true
    · rw [if_pos hok]
      show emits_after_ops
        ([Action.reverted f t, Action.emitted (.revert f t)] ++ (run_reverts env rest).1)
      exact emits_after_ops_append (emits_after_ops_op_emit _ _ rfl) ih
    · rw [if_neg hok]
      exact emits_after_ops_nil

/-- Helper: `revert_blocks` produces a durable trace. -/
theorem revert_blocks_emits_after_ops (env : Env) (blocks : List EthereumBlockPointer) :
    emits_after_ops (revert_blocks env blocks).1 := by
  unfold revert_blocks
  cases blocks.getLast? with
  | none => exact emits_after_ops_nil
  | some fb => exact run_reverts_emits_after_ops env _

/-- Helper: the LoadLocalHead handler emits nothing. -/
theorem poll_load_local_head_emits (env : Env) :
    emits_after_ops (poll_load_local_head env).1 := by
  unfold poll_load_local_head
  split
  · exact emits_after_ops_nil
  · exact emits_after_ops_nil

/-- Helper: the PollChainHead handler emits nothing. -/
theorem poll_poll_chain_head_emits (env : Env) (t : Nat)
    (lh : Option EthereumBlockPointer) :
    emits_after_ops (poll_poll_chain_head env t lh).1 := by
  unfold poll_poll_chain_head
  split
  · exact emits_after_ops_nil
  · split
    · exact emits_after_ops_nil
    · exact emits_after_ops_nil

/-- Helper: the ProcessBlocks handler emits nothing. -/
theorem poll_process_blocks_emits (lh : Option EthereumBlockPointer)
    (ch : LightEthereumBlock) (ns : List StreamItem) :
    emits_after_ops (poll_process_blocks lh ch ns).1 := by
  unfold poll_process_blocks
  split
  · exact emits_after_ops_nil
  · exact emits_after_ops_nil
  · exact emits_after_ops_nil
  · exact emits_after_ops_nil

/-- Helper: the VetBlock handler emits nothing. -/
theorem poll_vet_block_emits (lh : Option EthereumBlockPointer)
    (ch : LightEthereumBlock) (ns : List StreamItem) (b : BlockWithUncles) :
    emits_after_ops (poll_vet_block lh ch ns b).1 := by
  unfold poll_vet_block
  repeat' split
  all_goals exact emits_after_ops_nil

/-- Helper: the FetchForkedBlocks handler emits nothing. -/
theorem poll_fetch_forked_blocks_emits (env : Env) (ifuel : Nat)
    (lh : Option EthereumBlockPointer) (ch : LightEthereumBlock)
    (ns : List StreamItem) (b : BlockWithUncles) :
    emits_after_ops (poll_fetch_forked_blocks env ifuel lh ch ns b).1 := by
  unfold poll_fetch_forked_blocks
  split
  · split
    · exact emits_after_ops_nil
    · split
      · exact emits_after_ops_nil
      · exact emits_after_ops_nil
  · exact emits_after_ops_nil
  · exact emits_after_ops_nil
  · exact emits_after_ops_nil

/-- Helper: the RevertToForkBase handler produces a durable trace. -/
theorem poll_revert_to_fork_base_emits (env : Env) (ifuel : Nat)
    (lh : Option EthereumBlockPointer) (ch : LightEthereumBlock) (ns : List StreamItem)
    (lhp fbp : EthereumBlockPointer) :
    emits_after_ops (poll_revert_to_fork_base env ifuel lh ch ns lhp fbp).1 := by
  unfold poll_revert_to_fork_base
  split
  · split
    · exact revert_blocks_emits_after_ops env _
    · exact revert_blocks_emits_after_ops env _
    · exact revert_blocks_emits_after_ops env _
    · exact revert_blocks_emits_after_ops env _
  · exact emits_after_ops_nil
  · exact emits_after_ops_nil
  · exact emits_after_ops_nil

/-- Helper: the AddBlock handler produces a durable trace: the write precedes
the emitted event. -/
theorem poll_add_block_emits (env : Env) (t : Nat) (ch : LightEthereumBlock)
    (ns : List StreamItem) (olh : Option EthereumBlockPointer) (b : BlockWithUncles) :
    emits_after_ops (poll_add_block env t ch ns olh b).1 := by
  unfold poll_add_block
  split
  · exact emits_after_ops_op_emit _ _ rfl
  · exact emits_after_ops_nil

/-- Helper: every single machine step produces a durable action trace. -/
theorem step_emits_after_ops (env : Env) (ifuel t : Nat) (s : MState) :
    emits_after_ops (step env ifuel t s).1 := by
  by_cases hc : env.channelOpen t = true
  · cases s with
    | start =>
      have h : step env ifuel t .start = ([], .next .loadLocalHead) := by simp [step, hc]
      rw [h]; exact emits_after_ops_nil
    | loadLocalHead =>
      have h : step env ifuel t .loadLocalHead = poll_load_local_head env := by simp [step, hc]
      rw [h]; exact poll_load_local_head_emits env
    | pollChainHead lh =>
      have h : step env ifuel t (.pollChainHead lh) = poll_poll_chain_head env t lh := by
        simp [step, hc]
      rw [h]; exact poll_poll_chain_head_emits env t lh
    | processBlocks lh ch ns =>
      have h : step env ifuel t (.processBlocks lh ch ns) = poll_process_blocks lh ch ns := by
        simp [step, hc]
      rw [h]; exact poll_process_blocks_emits lh ch ns
    | vetBlock lh ch ns b =>
      have h : step env ifuel t (.vetBlock lh ch ns b) = poll_vet_block lh ch ns b := by
        simp [step, hc]
      rw [h]; exact poll_vet_block_emits lh ch ns b
    | fetchForkedBlocks lh ch ns b =>
      have h : step env ifuel t (.fetchForkedBlocks lh ch ns b) =
          poll_fetch_forked_blocks env ifuel lh ch ns b := by simp [step, hc]
      rw [h]; exact poll_fetch_forked_blocks_emits env ifuel lh ch ns b
    | revertToForkBase lh ch ns lhp fbp =>
      have h : step env ifuel t (.revertToForkBase lh ch ns lhp fbp) =
          poll_revert_to_fork_base env ifuel lh ch ns lhp fbp := by simp [step, hc]
      rw [h]; exact poll_revert_to_fork_base_emits env ifuel lh ch ns lhp fbp
    | addBlock ch ns olh b =>
      have h : step env ifuel t (.addBlock ch ns olh b) = poll_add_block env t ch ns olh b := by
        simp [step, hc]
      rw [h]; exact poll_add_block_emits env t ch ns olh b
  · have hc2 : env.channelOpen t = false := by
      cases hcc : env.channelOpen t
      · rfl
      · exact absurd hcc hc
    have h : step env ifuel t s = ([], .failed .channelClosed) := by simp [step, hc2]
    rw [h]; exact emits_after_ops_nil

/-- Helper: every run of the machine produces a durable action trace. -/
theorem run_emits_after_ops (env : Env) (ifuel : Nat) :
    ∀ (n t : Nat) (s : MState), emits_after_ops (run env ifuel n t s).1 := by
  intro n
  induction n with
  | zero => intro t s; exact emits_after_ops_nil
  | succ m ih =>
    intro t s
    have hstep := step_emits_after_ops env ifuel t s
    simp only [run]
    split
    · next acts s' heq =>
      rw [heq] at hstep
      exact emits_after_ops_append hstep (ih (t + 1) s')
    · next acts heq =>
      rw [heq] at hstep
      exact hstep
    · next acts e heq =>
      rw [heq] at hstep
      exact hstep
    · next acts heq =>
      rw [heq] at hstep
      exact hstep
    · next acts heq =>
      rw [heq] at hstep
      exact hstep

/-- C6: in every run (any environment, fuel, start time and state), each
emitted `AddBlock p` event in the action trace is preceded by a successful
`write_block` completion yielding pointer `p`, and each emitted
`Revert from to` event is preceded by a successful
`revert_block_operations(_, from, to)`; no event appears in the trace before
its corresponding store operation. -/
theorem run_durability (env : Env) (ifuel n t : Nat) (s : MState) :
    (∀ pre p suf, (run env ifuel n t s).1 = pre ++ Action.emitted (.addBlock p) :: suf →
      Action.wrote p ∈ pre) ∧
    (∀ pre f to_ suf,
      (run env ifuel n t s).1 = pre ++ Action.emitted (.revert f to_) :: suf →
      Action.reverted f to_ ∈ pre) := by
  have h := run_emits_after_ops env ifuel n t s
  exact ⟨fun pre p suf hs => h pre (.addBlock p) suf hs,
    fun pre f to_ suf hs => h pre (.revert f to_) suf hs⟩

/-- Witness for C6: a one-step run from `AddBlock` writes then emits (so the
write precedes the `AddBlock` event), and a one-step run from
`RevertToForkBase` reverts then emits (so the store revert precedes the
`Revert` event). -/
theorem run_durability_witness :
    Action.wrote (⟨2, 22⟩ : EthereumBlockPointer) ∈ [Action.wrote (⟨2, 22⟩ : EthereumBlockPointer)] ∧
    Action.reverted (⟨2, 20⟩ : EthereumBlockPointer) ⟨1, 10⟩ ∈
      [Action.reverted (⟨2, 20⟩ : EthereumBlockPointer) ⟨1, 10⟩] := by
  constructor
  · exact (run_durability env0 0 1 0 (.addBlock chW [] none bW)).1
      [Action.wrote ⟨2, 22⟩] ⟨2, 22⟩ [] (by decide)
  · exact (run_durability env5 2 1 0
      (.revertToForkBase (some ⟨2, 20⟩) chW [] ⟨2, 20⟩ ⟨1, 10⟩)).2
      [Action.reverted ⟨2, 20⟩ ⟨1, 10⟩] ⟨2, 20⟩ ⟨1, 10⟩ [] (by decide)

end NetworkIndexer
